import Mathlib

/-!
# Verification of the typewriter switch-scanner firmware

Shallow embedding of `src/arduino/typewriter/typewriter.ino`: a 20-channel
switch scanner that polls digital pins and emits one character over serial
on each idle→pressed (falling) edge.

The embedding models:
* the build-time tables `switchPins` and `letters`;
* the `prevStates` array, held in a `DeviceState` record together with the
  (immutable) tables;
* one execution of `loop` as a pure function from a pin-reading function and
  the device state to an event trace plus the updated state;
* serial output, pin reads and the blocking delay as explicit trace events.
-/

/-- Arduino logical level HIGH (pull-up idle level). -/
def HIGH : Nat := 1

/-- Arduino logical level LOW (pressed level, active-low wiring). -/
def LOW : Nat := 0

/-- A hardware pin identifier.  The sketch names digital pins `0`–`13` by
number and analog pins by the Arduino core constants `A0`–`A5`; those
constants denote pins distinct from every digital pin, which the embedding
keeps structural. -/
inductive Pin where
  | digital : Nat → Pin
  | analog : Nat → Pin
deriving DecidableEq, Repr

/-- `const int numSwitches = 20;` -/
def numSwitches : Nat := 20

/-- `const int switchPins[numSwitches] = { 0, 1, ..., 13, A5, A4, A3, A2, A1, A0 };` -/
def switchPins : List Pin :=
  [Pin.digital 0, Pin.digital 1, Pin.digital 2, Pin.digital 3, Pin.digital 4,
   Pin.digital 5, Pin.digital 6, Pin.digital 7, Pin.digital 8, Pin.digital 9,
   Pin.digital 10, Pin.digital 11, Pin.digital 12, Pin.digital 13,
   Pin.analog 5, Pin.analog 4, Pin.analog 3, Pin.analog 2, Pin.analog 1,
   Pin.analog 0]

/-- `const char letters[numSwitches] = { 'a', 'w', ..., 'l', 'p' };` -/
def letters : List Char :=
  ['a', 'w', 's', 'e', 'd', 'c', 'r', 'f', 't', 'g',
   'b', 'h', 'n', 'm', 'j', 'i', 'k', 'o', 'l', 'p']

theorem switchPins_length : switchPins.length = numSwitches := rfl

theorem letters_length : letters.length = numSwitches := rfl

/-- The pin of channel `i` of the table. -/
def pinAt (i : Fin numSwitches) : Pin :=
  switchPins.get (Fin.cast switchPins_length.symm i)

/-- The symbol of channel `i` of the table. -/
def symAt (i : Fin numSwitches) : Char :=
  letters.get (Fin.cast letters_length.symm i)

/-- Observable steps taken by the firmware: a `digitalRead` of a pin
returning a level, a `Serial.print` of one character, a `Serial.println`
of a string, a `delay`, a `Serial.begin`, and a `pinMode` configuration. -/
inductive Event where
  | readPin : Pin → Nat → Event
  | emit : Char → Event
  | println : String → Event
  | delayMs : Nat → Event
  | serialBegin : Nat → Event
  | configPin : Pin → Event
deriving DecidableEq, Repr

/-- The device state: the two build-time tables plus the mutable
`prevStates` array (design note 9 of the spec: globals become one
explicitly owned record). -/
structure DeviceState where
  pins : List Pin
  syms : List Char
  prevStates : List Nat
deriving DecidableEq, Repr

/-- `prevStates` as left by `setup`: each cell written to `HIGH`. -/
def setupPrev : List Nat := (List.range numSwitches).map (fun _ => HIGH)

/-- Trace of `setup()`: `Serial.begin(9600)`, the `pinMode` loop, then the
one-time readiness message. -/
def setupTrace : List Event :=
  Event.serialBegin 9600 :: switchPins.map Event.configPin
    ++ [Event.println "Switch detection active."]

/-- The state after `setup()`. -/
def initialState : DeviceState :=
  { pins := switchPins, syms := letters, prevStates := setupPrev }

/-- A device state with the build-time tables and a given `prevStates`. -/
def stateWith (prev : List Nat) : DeviceState :=
  { pins := switchPins, syms := letters, prevStates := prev }

/-- The body of `loop` over the per-channel triples
`((pin, letter), prevState)`: read the pin, on `state == LOW &&
prevStates[i] == HIGH` print the letter and delay 1000 ms, then store the
read level as the new previous state.  Returns the event trace and the new
`prevStates`. -/
def loopScan (read : Pin → Nat) : List ((Pin × Char) × Nat) → List Event × List Nat
  | [] => ([], [])
  | ((pin, c), p) :: rest =>
    let state := read pin
    let tail := loopScan read rest
    (Event.readPin pin state ::
       ((if state == LOW && p == HIGH
          then [Event.emit c, Event.delayMs 1000]
          else []) ++ tail.1),
     state :: tail.2)

/-- One full execution of `loop()` on a device state: scan all channels in
table order. -/
def loopStep (read : Pin → Nat) (s : DeviceState) : List Event × DeviceState :=
  let r := loopScan read ((s.pins.zip s.syms).zip s.prevStates)
  (r.1, { s with prevStates := r.2 })

/-- Several consecutive executions of `loop()`, one per reading function
(readings may differ from scan to scan). -/
def run : List (Pin → Nat) → DeviceState → List Event × DeviceState
  | [], s => ([], s)
  | r :: rs, s =>
    let first := loopStep r s
    let rest := run rs first.2
    (first.1 ++ rest.1, rest.2)

/-- The character printed by an event, if any. -/
def emittedChar : Event → Option Char
  | Event.emit c => some c
  | _ => none

/-- The characters printed over serial in a trace, in order. -/
def emitted (evs : List Event) : List Char := evs.filterMap emittedChar

/-- Whether an event is a `Serial.println` message. -/
def isMessage : Event → Bool
  | Event.println _ => true
  | _ => false

/-- The edge condition of the sketch: `state == LOW && prevStates[i] == HIGH`
for a channel triple. -/
def fires (read : Pin → Nat) (x : (Pin × Char) × Nat) : Bool :=
  (read x.1.1 == LOW) && (x.2 == HIGH)

/-- Modelled from the spec: the pin sequence that claim C3 asserts for the
table, "pins 0–9 followed by A5,A4,A3,A2,A1,A0". -/
def specClaimedPins : List Pin :=
  [Pin.digital 0, Pin.digital 1, Pin.digital 2, Pin.digital 3, Pin.digital 4,
   Pin.digital 5, Pin.digital 6, Pin.digital 7, Pin.digital 8, Pin.digital 9,
   Pin.analog 5, Pin.analog 4, Pin.analog 3, Pin.analog 2, Pin.analog 1,
   Pin.analog 0]

/-- C3 counterexample: the build-time table does not consist of pins 0–9
followed by A5–A0; it has 20 pin entries (the claimed sequence has 16) and
its entry at index 10 is digital pin 10, not A5. -/
theorem switchPins_ne_claimed :
    switchPins ≠ specClaimedPins ∧
      specClaimedPins.length ≠ numSwitches ∧
      switchPins.get ⟨10, by decide⟩ = Pin.digital 10 := by
  decide

/-- C3 (amended): the build-time channel table maps, in order, pins 0–13
followed by A5,A4,A3,A2,A1,A0 to the symbols
a,w,s,e,d,c,r,f,t,g,b,h,n,m,j,i,k,o,l,p in exactly that order, 20 entries
in each table. -/
theorem switchPins_letters_table :
    switchPins =
      [Pin.digital 0, Pin.digital 1, Pin.digital 2, Pin.digital 3,
       Pin.digital 4, Pin.digital 5, Pin.digital 6, Pin.digital 7,
       Pin.digital 8, Pin.digital 9, Pin.digital 10, Pin.digital 11,
       Pin.digital 12, Pin.digital 13, Pin.analog 5, Pin.analog 4,
       Pin.analog 3, Pin.analog 2, Pin.analog 1, Pin.analog 0] ∧
    letters =
      ['a', 'w', 's', 'e', 'd', 'c', 'r', 'f', 't', 'g',
       'b', 'h', 'n', 'm', 'j', 'i', 'k', 'o', 'l', 'p'] ∧
    switchPins.length = 20 ∧ letters.length = 20 := by
  refine ⟨rfl, rfl, rfl, rfl⟩

/-- C9: the 20 symbols of the letters table are pairwise distinct, so an
emitted data byte identifies the channel that produced it. -/
theorem letters_nodup : letters.Nodup := by decide

/-! ## Trace characterization lemmas -/

theorem emitted_append (xs ys : List Event) :
    emitted (xs ++ ys) = emitted xs ++ emitted ys :=
  List.filterMap_append xs ys emittedChar

/-- The characters printed by one pass over the channel triples are exactly
the symbols of the triples satisfying the edge condition, in table order. -/
theorem emitted_loopScan (read : Pin → Nat) (chs : List ((Pin × Char) × Nat)) :
    emitted (loopScan read chs).1 = (chs.filter (fires read)).map (fun x => x.1.2) := by
  induction chs with
  | nil => rfl
  | cons x t ih =>
    obtain ⟨⟨pin, c⟩, p⟩ := x
    by_cases h : (read pin == LOW && p == HIGH) = true
    · simp only [loopScan, emitted, List.filterMap_cons, List.filterMap_append, h,
        if_true, fires, List.filter_cons_of_pos, List.map_cons, emittedChar]
      simpa [emitted, emittedChar] using ih
    · simp only [loopScan, emitted, List.filterMap_cons, List.filterMap_append, h,
        if_false, fires, List.map_cons, emittedChar]
      rw [List.filter_cons_of_neg (by simpa [fires] using h)]
      simpa [emitted, emittedChar] using ih

/-- After one pass, the new `prevStates` holds, channel by channel, the level
just read — unconditionally. -/
theorem snd_loopScan (read : Pin → Nat) (chs : List ((Pin × Char) × Nat)) :
    (loopScan read chs).2 = chs.map (fun x => read x.1.1) := by
  induction chs with
  | nil => rfl
  | cons x t ih =>
    obtain ⟨⟨pin, c⟩, p⟩ := x
    simp [loopScan, ih]

/-- Counting occurrences of `g`-images in a filtered list, when `g` is
injective on the list: the count of `g` of the `i`-th element is `1` when
that element passes the filter and `0` otherwise. -/
theorem count_filter_map_of_nodup {α : Type} (f : α → Bool) (g : α → Char) :
    ∀ (l : List α) (i : Nat) (hi : i < l.length), (l.map g).Nodup →
      ((l.filter f).map g).count (g (l.get ⟨i, hi⟩)) =
        if f (l.get ⟨i, hi⟩) = true then 1 else 0 := by
  intro l
  induction l with
  | nil => intro i hi; exact absurd hi (by simp)
  | cons a t ih =>
    intro i hi hnd
    rw [List.map_cons, List.nodup_cons] at hnd
    obtain ⟨hna, hndt⟩ := hnd
    have hsub : List.Sublist ((t.filter f).map g) (t.map g) :=
      (List.filter_sublist t).map g
    have h0 : ((t.filter f).map g).count (g a) = 0 :=
      List.count_eq_zero.mpr (fun hm => hna (hsub.subset hm))
    match i with
    | 0 =>
      by_cases hfa : f a = true
      · rw [List.filter_cons_of_pos hfa, List.map_cons]
        simp only [List.get, hfa, if_true]
        rw [List.count_cons_self, h0]
      · rw [List.filter_cons_of_neg hfa, List.get]
        simp only [hfa, if_false]
        exact h0
    | k + 1 =>
      have hk : k < t.length := Nat.lt_of_succ_lt_succ hi
      have hmem : g (t.get ⟨k, hk⟩) ∈ t.map g :=
        List.mem_map_of_mem g (t.get_mem k hk)
      have hne : g (t.get ⟨k, hk⟩) ≠ g a := fun he => hna (he ▸ hmem)
      have hstep : (a :: t).get ⟨k + 1, hi⟩ = t.get ⟨k, hk⟩ := rfl
      rw [hstep]
      by_cases hfa : f a = true
      · rw [List.filter_cons_of_pos hfa, List.map_cons,
          List.count_cons_of_ne hne]
        exact ih k hk hndt
      · rw [List.filter_cons_of_neg hfa]
        exact ih k hk hndt

/-! ## The channel triples of a device state built on the tables -/

/-- The per-channel triples scanned by `loop` for a given `prevStates`. -/
def chsOf (prev : List Nat) : List ((Pin × Char) × Nat) :=
  (switchPins.zip letters).zip prev

theorem chsOf_length (prev : List Nat) (h : prev.length = numSwitches) :
    (chsOf prev).length = numSwitches := by
  simp [chsOf, List.length_zip, h]
  rfl

theorem chsOf_map_sym (prev : List Nat) (h : prev.length = numSwitches) :
    (chsOf prev).map (fun x => x.1.2) = letters := by
  have h1 : (chsOf prev).map Prod.fst = switchPins.zip letters :=
    List.map_fst_zip _ _ (by rw [h]; exact Nat.le_of_eq (by rfl))
  have h2 : (switchPins.zip letters).map Prod.snd = letters :=
    List.map_snd_zip _ _ (by decide)
  calc (chsOf prev).map (fun x => x.1.2)
      = ((chsOf prev).map Prod.fst).map Prod.snd := by
        rw [List.map_map]; rfl
    _ = letters := by rw [h1, h2]

theorem chsOf_get (prev : List Nat) (h : prev.length = numSwitches)
    (i : Fin numSwitches) :
    (chsOf prev).get (Fin.cast (chsOf_length prev h).symm i) =
      ((pinAt i, symAt i), prev.get (Fin.cast h.symm i)) := by
  simp [chsOf, pinAt, symAt, List.get_eq_getElem, List.getElem_zip]

theorem loopStep_stateWith (read : Pin → Nat) (prev : List Nat) :
    loopStep read (stateWith prev) =
      ((loopScan read (chsOf prev)).1, stateWith (loopScan read (chsOf prev)).2) :=
  rfl

/-! ## Per-scan emission count -/

/-- Core counting fact: in one execution of `loop`, channel `i`'s symbol is
printed once if the sketch's edge condition holds for channel `i` on that
scan, and zero times otherwise. -/
theorem scan_count_eq (read : Pin → Nat) (prev : List Nat)
    (h : prev.length = numSwitches) (i : Fin numSwitches) :
    (emitted (loopStep read (stateWith prev)).1).count (symAt i) =
      if (read (pinAt i) == LOW && prev.get (Fin.cast h.symm i) == HIGH) = true
      then 1 else 0 := by
  have hnd : ((chsOf prev).map (fun x => x.1.2)).Nodup := by
    rw [chsOf_map_sym prev h]; exact letters_nodup
  have hlt : i.val < (chsOf prev).length := by
    rw [chsOf_length prev h]; exact i.isLt
  have hg : (chsOf prev).get ⟨i.val, hlt⟩ =
      ((pinAt i, symAt i), prev.get (Fin.cast h.symm i)) := chsOf_get prev h i
  have hcnt := count_filter_map_of_nodup (fires read) (fun x => x.1.2)
    (chsOf prev) i.val hlt hnd
  rw [hg] at hcnt
  have htrace : emitted (loopStep read (stateWith prev)).1 =
      ((chsOf prev).filter (fires read)).map (fun x => x.1.2) := by
    show emitted (loopScan read (chsOf prev)).1 = _
    exact emitted_loopScan read (chsOf prev)
  rw [htrace]
  simpa [fires] using hcnt

/-- C1: on any single scan, a channel whose pin reads pressed (`LOW`) while
its `previousState` is idle (`HIGH`) has its symbol printed exactly once,
and a channel without that idle→pressed transition has its symbol printed
zero times. -/
theorem scan_edge_emits_once (read : Pin → Nat) (prev : List Nat)
    (h : prev.length = numSwitches) (i : Fin numSwitches) :
    ((read (pinAt i) = LOW ∧ prev.get (Fin.cast h.symm i) = HIGH) →
      (emitted (loopStep read (stateWith prev)).1).count (symAt i) = 1) ∧
    (¬ (read (pinAt i) = LOW ∧ prev.get (Fin.cast h.symm i) = HIGH) →
      (emitted (loopStep read (stateWith prev)).1).count (symAt i) = 0) := by
  rw [scan_count_eq read prev h i]
  constructor
  · rintro ⟨h1, h2⟩
    rw [if_pos (by rw [h1, h2]; rfl)]
  · intro hno
    rw [if_neg]
    intro hold
    apply hno
    simpa [Bool.and_eq_true, beq_iff_eq] using hold

/-- C1 witness: with all 20 `previousState` cells idle and every pin reading
pressed, channel 0 prints exactly one symbol; with every pin reading idle,
channel 0 prints nothing. -/
theorem scan_edge_emits_once_check :
    (emitted (loopStep (fun _ => LOW)
        (stateWith (List.replicate numSwitches HIGH))).1).count
      (symAt ⟨0, by decide⟩) = 1 ∧
    (emitted (loopStep (fun _ => HIGH)
        (stateWith (List.replicate numSwitches HIGH))).1).count
      (symAt ⟨0, by decide⟩) = 0 :=
  ⟨(scan_edge_emits_once (fun _ => LOW) (List.replicate numSwitches HIGH)
      (by decide) ⟨0, by decide⟩).1 ⟨rfl, by decide⟩,
   (scan_edge_emits_once (fun _ => HIGH) (List.replicate numSwitches HIGH)
      (by decide) ⟨0, by decide⟩).2 (by decide)⟩

/-! ## The previous-state array -/

theorem setupPrev_length : setupPrev.length = numSwitches := by
  simp [setupPrev]

theorem loopStep_prev_length (read : Pin → Nat) (prev : List Nat)
    (h : prev.length = numSwitches) :
    (loopStep read (stateWith prev)).2.prevStates.length = numSwitches := by
  show (loopScan read (chsOf prev)).2.length = numSwitches
  rw [snd_loopScan, List.length_map, chsOf_length prev h]

theorem loopStep_prev_get (read : Pin → Nat) (prev : List Nat)
    (h : prev.length = numSwitches) (i : Fin numSwitches) :
    (loopStep read (stateWith prev)).2.prevStates.get
      (Fin.cast (loopStep_prev_length read prev h).symm i) = read (pinAt i) := by
  have hlt : i.val < (chsOf prev).length := by
    rw [chsOf_length prev h]; exact i.isLt
  have hg : (chsOf prev).get ⟨i.val, hlt⟩ =
      ((pinAt i, symAt i), prev.get (Fin.cast h.symm i)) := chsOf_get prev h i
  have h9 : (loopScan read (chsOf prev)).2.get? i.val = some (read (pinAt i)) := by
    rw [snd_loopScan, List.get?_map, List.get?_eq_get hlt, hg]
    rfl
  have hlt2 : i.val < (loopScan read (chsOf prev)).2.length := by
    rw [show (loopScan read (chsOf prev)).2.length = numSwitches from
      loopStep_prev_length read prev h]
    exact i.isLt
  rw [List.get?_eq_get hlt2] at h9
  injection h9 with h10

/-- C4: every channel's `previousState` equals the idle level `HIGH` before
the first scan, and after a scan it equals the level just read for that
channel, unconditionally. -/
theorem prevStates_init_and_update (read : Pin → Nat) (prev : List Nat)
    (h : prev.length = numSwitches) (i : Fin numSwitches) :
    setupPrev.get (Fin.cast setupPrev_length.symm i) = HIGH ∧
    (loopStep read (stateWith prev)).2.prevStates.get
      (Fin.cast (loopStep_prev_length read prev h).symm i) = read (pinAt i) := by
  constructor
  · simp [setupPrev, List.get_eq_getElem]
  · exact loopStep_prev_get read prev h i

/-- C4 witness: with an all-idle `previousState` array and every pin reading
pressed, channel 3 starts at `HIGH` and holds `LOW` after the scan. -/
theorem prevStates_init_and_update_check :
    setupPrev.get (Fin.cast setupPrev_length.symm ⟨3, by decide⟩) = HIGH ∧
    (loopStep (fun _ => LOW)
        (stateWith (List.replicate numSwitches HIGH))).2.prevStates.get
      (Fin.cast (loopStep_prev_length (fun _ => LOW)
          (List.replicate numSwitches HIGH) (by decide)).symm
        ⟨3, by decide⟩) = (fun _ => LOW) (pinAt ⟨3, by decide⟩) :=
  prevStates_init_and_update (fun _ => LOW) (List.replicate numSwitches HIGH)
    (by decide) ⟨3, by decide⟩

/-! ## The readiness message -/

theorem loopScan_no_message (read : Pin → Nat)
    (chs : List ((Pin × Char) × Nat)) :
    (loopScan read chs).1.countP isMessage = 0 := by
  induction chs with
  | nil => rfl
  | cons x t ih =>
    obtain ⟨⟨pin, c⟩, p⟩ := x
    by_cases hc : (read pin == LOW && p == HIGH) = true
    · simp [loopScan, hc, List.countP_cons, List.countP_append, isMessage, ih]
    · simp [loopScan, hc, List.countP_cons, List.countP_append, isMessage, ih]

theorem run_no_message (reads : List (Pin → Nat)) (s : DeviceState) :
    (run reads s).1.countP isMessage = 0 := by
  induction reads generalizing s with
  | nil => rfl
  | cons r rs ih =>
    show ((loopStep r s).1 ++ (run rs (loopStep r s).2).1).countP isMessage = 0
    rw [List.countP_append, ih]
    show (loopScan r ((s.pins.zip s.syms).zip s.prevStates)).1.countP isMessage + 0 = 0
    rw [loopScan_no_message]

/-- C6: the newline-terminated readiness message is printed exactly once,
in `setup`; no execution of the scan loop ever prints a message again. -/
theorem readiness_message_once :
    setupTrace.countP isMessage = 1 ∧
      ∀ (reads : List (Pin → Nat)) (s : DeviceState),
        (run reads s).1.countP isMessage = 0 :=
  ⟨by rfl, fun reads s => run_no_message reads s⟩

/-! ## The tables are never mutated -/

/-- C8: the channel table has exactly 20 entries, `setup` leaves the
build-time tables in place, and any number of scan-loop iterations leaves
the pin table and the symbol table of any device state unchanged — only
`prevStates` is rewritten. -/
theorem tables_never_mutated :
    initialState.pins = switchPins ∧ initialState.syms = letters ∧
    initialState.pins.length = 20 ∧ initialState.syms.length = 20 ∧
      ∀ (reads : List (Pin → Nat)) (s : DeviceState),
        (run reads s).2.pins = s.pins ∧ (run reads s).2.syms = s.syms := by
  refine ⟨rfl, rfl, rfl, rfl, ?_⟩
  intro reads
  induction reads with
  | nil => intro s; exact ⟨rfl, rfl⟩
  | cons r rs ih =>
    intro s
    constructor
    · show (run rs (loopStep r s).2).2.pins = s.pins
      rw [(ih (loopStep r s).2).1]
      rfl
    · show (run rs (loopStep r s).2).2.syms = s.syms
      rw [(ih (loopStep r s).2).2]
      rfl

/-! ## Determinism -/

theorem loopScan_congr (read1 read2 : Pin → Nat)
    (chs : List ((Pin × Char) × Nat))
    (h : ∀ x ∈ chs, read1 x.1.1 = read2 x.1.1) :
    loopScan read1 chs = loopScan read2 chs := by
  induction chs with
  | nil => rfl
  | cons x t ih =>
    obtain ⟨⟨pin, c⟩, p⟩ := x
    have h1 : read1 pin = read2 pin := h _ (List.mem_cons_self _ _)
    have h2 := ih (fun y hy => h y (List.mem_cons_of_mem _ hy))
    simp [loopScan, h1, h2]

theorem run_agree : ∀ (reads1 reads2 : List (Pin → Nat)),
    List.Forall₂ (fun r1 r2 => ∀ p ∈ switchPins, r1 p = r2 p) reads1 reads2 →
    ∀ s : DeviceState, s.pins = switchPins →
      run reads1 s = run reads2 s := by
  intro reads1 reads2 h
  induction h with
  | nil => intro s _; rfl
  | @cons r1 r2 rs1 rs2 hr hrest ih =>
    intro s hs
    have hmem : ∀ x ∈ (s.pins.zip s.syms).zip s.prevStates,
        r1 x.1.1 = r2 x.1.1 := by
      intro x hx
      rcases x with ⟨⟨pin, c⟩, p⟩
      have h1 : (pin, c) ∈ s.pins.zip s.syms := (List.of_mem_zip hx).1
      have h2 : pin ∈ s.pins := (List.of_mem_zip h1).1
      exact hr pin (hs ▸ h2)
    have hstep : loopStep r1 s = loopStep r2 s := by
      show ((loopScan r1 ((s.pins.zip s.syms).zip s.prevStates)).1,
          { s with prevStates :=
              (loopScan r1 ((s.pins.zip s.syms).zip s.prevStates)).2 }) = _
      rw [loopScan_congr r1 r2 _ hmem]
      rfl
    show ((loopStep r1 s).1 ++ (run rs1 (loopStep r1 s).2).1,
        (run rs1 (loopStep r1 s).2).2) = _
    rw [hstep, ih (loopStep r2 s).2 (by exact hs)]
    rfl

/-- C10: the scanner is deterministic — two runs from the initialized state
whose reading functions agree on every table pin, scan by scan, produce the
same event trace and the same final state; nothing outside `prevStates` and
the readings influences the result. -/
theorem run_deterministic (reads1 reads2 : List (Pin → Nat))
    (h : List.Forall₂ (fun r1 r2 => ∀ p ∈ switchPins, r1 p = r2 p)
      reads1 reads2) :
    run reads1 initialState = run reads2 initialState :=
  run_agree reads1 reads2 h initialState rfl

/-- C10 witness: two syntactically different reading functions that agree on
all pins give identical runs. -/
theorem run_deterministic_check :
    run [fun _ => LOW] initialState =
      run [fun p => if p = p then LOW else HIGH] initialState :=
  run_deterministic _ _
    (List.Forall₂.cons (fun p _ => by simp) List.Forall₂.nil)

/-! ## Holding a switch pressed -/

/-- While a channel's `previousState` is `LOW` and its pin keeps reading
`LOW`, no scan of the run prints that channel's symbol. -/
theorem run_hold_low_no_emit (i : Fin numSwitches) :
    ∀ (reads : List (Pin → Nat)) (prev : List Nat)
      (h : prev.length = numSwitches),
      (∀ r ∈ reads, r (pinAt i) = LOW) →
      prev.get (Fin.cast h.symm i) = LOW →
      (emitted (run reads (stateWith prev)).1).count (symAt i) = 0 := by
  intro reads
  induction reads with
  | nil => intro prev h _ _; rfl
  | cons r rs ih =>
    intro prev h hr hp
    have hsplit : (run (r :: rs) (stateWith prev)).1 =
        (loopStep r (stateWith prev)).1 ++
          (run rs (loopStep r (stateWith prev)).2).1 := rfl
    rw [hsplit, emitted_append, List.count_append,
      scan_count_eq r prev h i, if_neg]
    · have hlen2 := loopStep_prev_length r prev h
      have hget := loopStep_prev_get r prev h i
      have hrec := ih (loopStep r (stateWith prev)).2.prevStates hlen2
        (fun r2 hr2 => hr r2 (List.mem_cons_of_mem _ hr2))
        (by rw [hget]; exact hr r (List.mem_cons_self _ _))
      rw [Nat.zero_add]
      exact hrec
    · intro hx
      rw [hp] at hx
      simp [LOW, HIGH] at hx

/-- C2: strictly edge-triggered emission.  Holding a channel pressed across
`N ≥ 1` consecutive scans (here `r :: rs`, all reading `LOW` at the
channel's pin) starting from an idle `previousState` prints the channel's
symbol exactly once; and a pressed→idle (release) scan prints nothing for
that channel. -/
theorem hold_press_emits_once (i : Fin numSwitches) :
    (∀ (r : Pin → Nat) (rs : List (Pin → Nat)) (prev : List Nat)
        (h : prev.length = numSwitches),
      r (pinAt i) = LOW → (∀ r2 ∈ rs, r2 (pinAt i) = LOW) →
      prev.get (Fin.cast h.symm i) = HIGH →
      (emitted (run (r :: rs) (stateWith prev)).1).count (symAt i) = 1) ∧
    (∀ (r : Pin → Nat) (prev : List Nat) (h : prev.length = numSwitches),
      r (pinAt i) = HIGH → prev.get (Fin.cast h.symm i) = LOW →
      (emitted (loopStep r (stateWith prev)).1).count (symAt i) = 0) := by
  constructor
  · intro r rs prev h hr hrs hp
    have hsplit : (run (r :: rs) (stateWith prev)).1 =
        (loopStep r (stateWith prev)).1 ++
          (run rs (loopStep r (stateWith prev)).2).1 := rfl
    rw [hsplit, emitted_append, List.count_append,
      scan_count_eq r prev h i, if_pos (by rw [hr, hp]; rfl)]
    have hlen2 := loopStep_prev_length r prev h
    have hget := loopStep_prev_get r prev h i
    have hrest := run_hold_low_no_emit i rs
      (loopStep r (stateWith prev)).2.prevStates hlen2 hrs
      (by rw [hget]; exact hr)
    show 1 + (emitted (run rs
        (stateWith (loopStep r (stateWith prev)).2.prevStates)).1).count
      (symAt i) = 1
    rw [hrest]
  · intro r prev h hr hp
    rw [scan_count_eq r prev h i, if_neg]
    intro hx
    rw [hp] at hx
    simp [LOW, HIGH] at hx

/-- C2 witness: pressing channel 0 and holding it across three scans prints
its symbol once; releasing from pressed prints nothing. -/
theorem hold_press_emits_once_check :
    (emitted (run [fun _ => LOW, fun _ => LOW, fun _ => LOW]
        (stateWith (List.replicate numSwitches HIGH))).1).count
      (symAt ⟨0, by decide⟩) = 1 ∧
    (emitted (loopStep (fun _ => HIGH)
        (stateWith (List.replicate numSwitches LOW))).1).count
      (symAt ⟨0, by decide⟩) = 0 :=
  ⟨(hold_press_emits_once ⟨0, by decide⟩).1 (fun _ => LOW)
      [fun _ => LOW, fun _ => LOW] (List.replicate numSwitches HIGH)
      (by decide) rfl
      (by
        intro r2 h2
        cases h2 with
        | head => rfl
        | tail _ h3 =>
          cases h3 with
          | head => rfl
          | tail _ h4 => cases h4)
      (by decide),
   (hold_press_emits_once ⟨0, by decide⟩).2 (fun _ => HIGH)
      (List.replicate numSwitches LOW) (by decide) rfl (by decide)⟩

/-! ## Simultaneous presses come out in table order -/

/-- Two positions of a list, taken in index order, form a sublist. -/
theorem pair_get_sublist {α : Type} : ∀ (l : List α) (i j : Nat)
    (hi : i < l.length) (hj : j < l.length), i < j →
    List.Sublist [l.get ⟨i, hi⟩, l.get ⟨j, hj⟩] l := by
  intro l
  induction l with
  | nil => intro i j hi; exact absurd hi (by simp)
  | cons a t ih =>
    intro i j hi hj hij
    cases j with
    | zero => exact absurd hij (by omega)
    | succ k =>
      cases i with
      | zero =>
        exact List.Sublist.cons₂ a
          (List.singleton_sublist.mpr (t.get_mem k (Nat.lt_of_succ_lt_succ hj)))
      | succ iv =>
        exact List.Sublist.cons a
          (ih iv k (Nat.lt_of_succ_lt_succ hi) (Nat.lt_of_succ_lt_succ hj)
            (by omega))

/-- C5: if the channels mapped to `'w'` (index 1) and `'s'` (index 2) both
transition idle→pressed on the same scan, both symbols are printed exactly
once within that scan, with `'w'` before `'s'` (table order). -/
theorem simultaneous_press_in_order (read : Pin → Nat) (prev : List Nat)
    (h : prev.length = numSwitches)
    (hw : read (pinAt ⟨1, by decide⟩) = LOW ∧
      prev.get (Fin.cast h.symm ⟨1, by decide⟩) = HIGH)
    (hv : read (pinAt ⟨2, by decide⟩) = LOW ∧
      prev.get (Fin.cast h.symm ⟨2, by decide⟩) = HIGH) :
    (emitted (loopStep read (stateWith prev)).1).count 'w' = 1 ∧
    (emitted (loopStep read (stateWith prev)).1).count 's' = 1 ∧
    List.Sublist ['w', 's'] (emitted (loopStep read (stateWith prev)).1) := by
  have hc1 : (emitted (loopStep read (stateWith prev)).1).count
      (symAt ⟨1, by decide⟩) = 1 := by
    rw [scan_count_eq read prev h ⟨1, by decide⟩,
      if_pos (by rw [hw.1, hw.2]; rfl)]
  have hc2 : (emitted (loopStep read (stateWith prev)).1).count
      (symAt ⟨2, by decide⟩) = 1 := by
    rw [scan_count_eq read prev h ⟨2, by decide⟩,
      if_pos (by rw [hv.1, hv.2]; rfl)]
  refine ⟨hc1, hc2, ?_⟩
  have htrace : emitted (loopStep read (stateWith prev)).1 =
      ((chsOf prev).filter (fires read)).map (fun x => x.1.2) := by
    show emitted (loopScan read (chsOf prev)).1 = _
    exact emitted_loopScan read (chsOf prev)
  rw [htrace]
  have hlt1 : (1 : Nat) < (chsOf prev).length := by
    rw [chsOf_length prev h]; decide
  have hlt2 : (2 : Nat) < (chsOf prev).length := by
    rw [chsOf_length prev h]; decide
  have hg1 : (chsOf prev).get ⟨1, hlt1⟩ =
      ((pinAt ⟨1, by decide⟩, symAt ⟨1, by decide⟩),
        prev.get (Fin.cast h.symm ⟨1, by decide⟩)) :=
    chsOf_get prev h ⟨1, by decide⟩
  have hg2 : (chsOf prev).get ⟨2, hlt2⟩ =
      ((pinAt ⟨2, by decide⟩, symAt ⟨2, by decide⟩),
        prev.get (Fin.cast h.symm ⟨2, by decide⟩)) :=
    chsOf_get prev h ⟨2, by decide⟩
  have hf1 : fires read ((chsOf prev).get ⟨1, hlt1⟩) = true := by
    rw [hg1]; simp only [fires]; rw [hw.1, hw.2]; rfl
  have hf2 : fires read ((chsOf prev).get ⟨2, hlt2⟩) = true := by
    rw [hg2]; simp only [fires]; rw [hv.1, hv.2]; rfl
  have hpair := pair_get_sublist (chsOf prev) 1 2 hlt1 hlt2 (by omega)
  have hsub2 := hpair.filter (fires read)
  rw [List.filter_cons_of_pos hf1, List.filter_cons_of_pos hf2,
    List.filter_nil] at hsub2
  have hsub3 := hsub2.map (fun x => x.1.2)
  have hmap : List.map (fun x => x.1.2)
      [(chsOf prev).get ⟨1, hlt1⟩, (chsOf prev).get ⟨2, hlt2⟩] = ['w', 's'] := by
    rw [hg1, hg2]
    rfl
  rw [hmap] at hsub3
  exact hsub3

/-- C5 witness: with all channels idle and every pin reading pressed, the
scan prints one `'w'` and one `'s'`, `'w'` first. -/
theorem simultaneous_press_in_order_check :
    (emitted (loopStep (fun _ => LOW)
        (stateWith (List.replicate numSwitches HIGH))).1).count 'w' = 1 ∧
    (emitted (loopStep (fun _ => LOW)
        (stateWith (List.replicate numSwitches HIGH))).1).count 's' = 1 ∧
    List.Sublist ['w', 's']
      (emitted (loopStep (fun _ => LOW)
        (stateWith (List.replicate numSwitches HIGH))).1) :=
  simultaneous_press_in_order (fun _ => LOW) (List.replicate numSwitches HIGH)
    (by decide) ⟨rfl, by decide⟩ ⟨rfl, by decide⟩

/-! ## The blocking delay follows every emission -/

/-- A trace in which every `Serial.print` of a symbol is immediately
followed by the 1000 ms `delay` event (in particular, no trace satisfying
this ends in an emission). -/
def wellDelayed : List Event → Bool
  | [] => true
  | Event.emit _ :: rest =>
    (rest.head? == some (Event.delayMs 1000)) && wellDelayed rest
  | _ :: rest => wellDelayed rest

theorem wellDelayed_tail (e : Event) (t : List Event)
    (h : wellDelayed (e :: t) = true) : wellDelayed t = true := by
  cases e
  case emit c =>
    simp only [wellDelayed, Bool.and_eq_true] at h
    exact h.2
  all_goals simpa [wellDelayed] using h

theorem wellDelayed_append (xs ys : List Event)
    (hx : wellDelayed xs = true) (hy : wellDelayed ys = true) :
    wellDelayed (xs ++ ys) = true := by
  induction xs with
  | nil => exact hy
  | cons e t ih =>
    cases e
    case emit c =>
      have h1 : (t.head? == some (Event.delayMs 1000)) = true ∧
          wellDelayed t = true := by
        simpa [wellDelayed, Bool.and_eq_true] using hx
      have ht : t ≠ [] := by
        intro he
        rw [he] at h1
        simp at h1
      have hh : (t ++ ys).head? = t.head? := by
        cases t with
        | nil => exact absurd rfl ht
        | cons a t2 => rfl
      rw [List.cons_append]
      simp only [wellDelayed, Bool.and_eq_true]
      refine ⟨by rw [hh]; exact h1.1, ih h1.2⟩
    all_goals
      rw [List.cons_append]
      simp only [wellDelayed]
      exact ih (by simpa [wellDelayed] using hx)

theorem wellDelayed_loopScan (read : Pin → Nat)
    (chs : List ((Pin × Char) × Nat)) :
    wellDelayed (loopScan read chs).1 = true := by
  induction chs with
  | nil => rfl
  | cons x t ih =>
    obtain ⟨⟨pin, c⟩, p⟩ := x
    by_cases hc : (read pin == LOW && p == HIGH) = true
    · simp [loopScan, hc, wellDelayed, ih]
    · simp [loopScan, hc, wellDelayed, ih]

theorem wellDelayed_run (reads : List (Pin → Nat)) (s : DeviceState) :
    wellDelayed (run reads s).1 = true := by
  induction reads generalizing s with
  | nil => rfl
  | cons r rs ih =>
    show wellDelayed ((loopStep r s).1 ++ (run rs (loopStep r s).2).1) = true
    exact wellDelayed_append _ _
      (wellDelayed_loopScan r ((s.pins.zip s.syms).zip s.prevStates)) (ih _)

theorem wellDelayed_next (evs : List Event) (hw : wellDelayed evs = true) :
    ∀ (n : Nat) (c : Char), evs.get? n = some (Event.emit c) →
      evs.get? (n + 1) = some (Event.delayMs 1000) := by
  induction evs with
  | nil => intro n c hn; simp at hn
  | cons e t ih =>
    intro n c hn
    match n with
    | 0 =>
      rw [List.get?_cons_zero] at hn
      injection hn with he
      subst he
      simp only [wellDelayed, Bool.and_eq_true] at hw
      have h1 : t.head? = some (Event.delayMs 1000) := by
        have := hw.1
        rwa [beq_iff_eq] at this
      rw [List.get?_cons_succ]
      rw [show t.get? 0 = t.head? by cases t <;> rfl]
      exact h1
    | m + 1 =>
      rw [List.get?_cons_succ] at hn
      rw [List.get?_cons_succ]
      exact ih (wellDelayed_tail e t hw) m c hn

/-- C7: in any run, whenever a symbol is printed, the very next event of the
trace is the fixed 1000 ms blocking delay — no pin of any channel is read
again before the delay step completes. -/
theorem emit_then_delay (reads : List (Pin → Nat)) (s : DeviceState)
    (n : Nat) (c : Char)
    (h : (run reads s).1.get? n = some (Event.emit c)) :
    (run reads s).1.get? (n + 1) = some (Event.delayMs 1000) :=
  wellDelayed_next (run reads s).1 (wellDelayed_run reads s) n c h

/-- C7 witness: in a run from the initialized state where every pin reads
pressed, the event after the first emission (index 1) is the 1000 ms
delay. -/
theorem emit_then_delay_check :
    (run [fun _ => LOW] initialState).1.get? 2 =
      some (Event.delayMs 1000) :=
  emit_then_delay [fun _ => LOW] initialState 1 'a' (by rfl)
